import Mathlib

/-!
Verification of the Console-Calculator expression compiler.

The development shallowly embeds the two C++ source files of the repository
(src/cpp/main.cpp and src/unnamed/part_000).  C++ `double` values are embedded
as exact rationals (ℚ): every concrete computation exercised by the claims
stays within the range where IEEE double arithmetic is exact, so the rational
semantics coincides with the source on all inputs appearing in the theorems.
The recursive parser `parseToken` is embedded with an explicit fuel parameter
(the C++ recursion has no structural decreasing argument); all structural
theorems are stated for every fuel value, and concrete examples use a fuel
that is checked to be large enough by evaluation.
-/

namespace Calculator

/-- Embedding of `enum class Operation` from src/cpp/main.cpp (identical in
src/unnamed/part_000). -/
inductive Operation where
  | NONE
  | SUM
  | MIN
  | MUL
  | DIV
  | POW
deriving DecidableEq, Repr

/-- Embedding of `getOperationFromChar` (src/cpp/main.cpp lines 24-38): the
switch over the five operator characters, any other character giving NONE. -/
def getOperationFromChar (c : Char) : Operation :=
  if c = '+' then Operation.SUM
  else if c = '-' then Operation.MIN
  else if c = '*' then Operation.MUL
  else if c = '/' then Operation.DIV
  else if c = '^' then Operation.POW
  else Operation.NONE

def MIN_PRIORITY : Nat := 1
def MAX_PRIORITY : Nat := 3

/-- Embedding of `getPriority` (src/cpp/main.cpp lines 43-56); the C++
`default` branch returns 0, which covers NONE. -/
def getPriority (operation : Operation) : Nat :=
  match operation with
  | Operation.SUM => 1
  | Operation.MIN => 1
  | Operation.MUL => 2
  | Operation.DIV => 2
  | Operation.POW => 3
  | Operation.NONE => 0

/-- Embedding of the `Token` class hierarchy (src/cpp/main.cpp lines 60-109):
a `NumberToken` leaf holding a value, or an `OperationToken` with an operation
and two owned children `a` and `b`.  (The two-argument `OperationToken`
constructor is the only one the program ever calls; the one-argument variant
is dead code and is not modelled.) -/
inductive Token where
  | NumberToken (value : ℚ)
  | OperationToken (operation : Operation) (a b : Token)
deriving DecidableEq, Repr

/-- Embedding of `std::pow` on doubles, restricted to the exact-rational
fragment: for an integer exponent the value is the exact integer power (this
is what every claim exercises).  A non-integer exponent falls outside the
exact-rational embedding and is mapped to 0; no claim depends on that case.
Likewise 0 raised to a negative power is 0 here where IEEE gives infinity;
no claim exercises it. -/
def powQ (a b : ℚ) : ℚ :=
  if b.den = 1 then a ^ b.num else 0

/-- Embedding of the virtual `resolve` methods (src/cpp/main.cpp lines 73-75
and 90-108): a NumberToken resolves to its stored value, an OperationToken
resolves both children and combines them per the switch on `operation`
(whose `default` branch returns 0). -/
def resolve (t : Token) : ℚ :=
  match t with
  | Token.NumberToken value => value
  | Token.OperationToken operation a b =>
    let aValue := resolve a
    let bValue := resolve b
    match operation with
    | Operation.SUM => aValue + bValue
    | Operation.MIN => aValue - bValue
    | Operation.MUL => aValue * bValue
    | Operation.DIV => aValue / bValue
    | Operation.POW => powQ aValue bValue
    | Operation.NONE => 0

/-- Embedding of `constexpr double PI` (src/cpp/main.cpp line 113), kept as
the exact decimal literal of the source. -/
def PI : ℚ := 3.14159265358979323846

/-- Embedding of `constexpr double E` (src/cpp/main.cpp line 114). -/
def E : ℚ := 2.71828182845904523536

/-- Value of a list of decimal digit characters, most significant first. -/
def digitsVal (ds : List Char) : Nat :=
  ds.foldl (fun n c => n * 10 + (c.toNat - 48)) 0

/-- The unsigned digit sequence of strtod, optionally containing one decimal
point: computes its rational value and the unconsumed suffix, failing when no
digit is present. -/
def parseMantissa (cs : List Char) : Option ℚ × List Char :=
  let ip := cs.takeWhile Char.isDigit
  let cs2 := cs.dropWhile Char.isDigit
  let fp := if cs2.head? = some '.' then cs2.tail.takeWhile Char.isDigit else []
  let cs3 := if cs2.head? = some '.' then cs2.tail.dropWhile Char.isDigit else cs2
  if ip = [] ∧ fp = [] then (none, cs)
  else (some ((digitsVal ip : ℚ) + (digitsVal fp : ℚ) / 10 ^ fp.length), cs3)

/-- The optional exponent part of strtod: an 'e' or 'E' followed by an
optional sign and at least one digit; consumed only when the digits are
present, otherwise rolled back. -/
def parseExponentPart (cs3 : List Char) : ℤ × List Char :=
  let afterE := cs3.tail
  let cs4 := if afterE.head? = some '-' ∨ afterE.head? = some '+' then afterE.tail else afterE
  let ed := cs4.takeWhile Char.isDigit
  if (cs3.head? = some 'e' ∨ cs3.head? = some 'E') ∧ ed ≠ [] then
    ((if afterE.head? = some '-' then -(digitsVal ed : ℤ) else (digitsVal ed : ℤ)),
      cs4.dropWhile Char.isDigit)
  else (0, cs3)

/-- Embedding of the C library `strtod` (the engine behind `std::stod`),
restricted to its decimal forms: optional sign, digit sequence optionally
containing one decimal point (`parseMantissa`), optional exponent part
(`parseExponentPart`).  Returns the parsed value and the unconsumed suffix;
returns `none` (std::stod throws std::invalid_argument) when no conversion
can be performed, with the whole input unconsumed.  The hexadecimal,
infinity and NaN forms and the out-of-range behaviour of strtod are outside
the exact-rational embedding and are not modelled; no claim exercises
them. -/
def strtod (cs : List Char) : Option ℚ × List Char :=
  let sgn : ℚ := if cs.head? = some '-' then -1 else 1
  let cs1 := if cs.head? = some '-' ∨ cs.head? = some '+' then cs.tail else cs
  match parseMantissa cs1 with
  | (none, _) => (none, cs)
  | (some m, cs3) =>
    let er := parseExponentPart cs3
    (some (sgn * m * (10 : ℚ) ^ er.1), er.2)

/-- Embedding of `parseNumber` (src/cpp/main.cpp lines 116-126): the
case-sensitive constants "pi" and "e", otherwise `std::stod`; a stod
exception becomes `none`. -/
def parseNumber (token : List Char) : Option ℚ :=
  if token = ['p', 'i'] then some PI
  else if token = ['e'] then some E
  else (strtod token).1

/-- Decimal digit characters of a natural number, via repeated division;
the first argument is fuel (set to n+1 by `natDigits`, always enough). -/
def natDigitsAux : Nat → Nat → List Char → List Char
  | 0, _, acc => acc
  | fuel + 1, n, acc =>
    if n < 10 then Char.ofNat (48 + n) :: acc
    else natDigitsAux fuel (n / 10) (Char.ofNat (48 + n % 10) :: acc)

def natDigits (n : Nat) : List Char := natDigitsAux (n + 1) n []

/-- Nearest integer to |q| * 10^6 (ties away from zero), as used by the
fixed six-decimal formatting of `std::to_string(double)`. -/
def round6 (q : ℚ) : Nat :=
  (2 * q.num.natAbs * 1000000 + q.den) / (2 * q.den)

/-- Embedding of `std::to_string(double)`: sprintf "%f" fixed formatting with
exactly six digits after the decimal point.  (A tie at the sixth decimal is
rounded away from zero here; printf resolves ties on the binary value of the
double - no claim exercises a tie.) -/
def toString6 (q : ℚ) : List Char :=
  let n := round6 q
  let fpart := natDigits (n % 1000000)
  (if q < 0 then ['-'] else []) ++ natDigits (n / 1000000) ++ ['.']
    ++ List.replicate (6 - fpart.length) '0' ++ fpart

/-- Embedding of the inner loop of `parseToken` (src/cpp/main.cpp lines
135-155): scan forward from the character after a '(' keeping `opens` and
`closes` counters (the '(' itself already counted in `opens`), returning the
offset of the first position where the counters agree. -/
def scanClose : List Char → Nat → Nat → Option Nat
  | [], _, _ => none
  | c :: rest, opens, closes =>
    let opens' := if c = '(' then opens + 1 else opens
    let closes' := if c = ')' then closes + 1 else closes
    if opens' = closes' then some 0
    else (scanClose rest opens' closes').map (fun k => k + 1)

/-- Embedding of the outer parenthesis loop of `parseToken` (src/cpp/main.cpp
lines 131-157): find the first '(' whose forward scan balances, returning its
index and the index of the matching ')'.  When the scan of a '(' never
balances the outer loop continues past it, exactly as the C++ loop does. -/
def findOpen : List Char → Option (Nat × Nat)
  | [] => none
  | c :: rest =>
    if c = '(' then
      match scanClose rest 1 0 with
      | some k => some (0, k + 1)
      | none => (findOpen rest).map (fun p => (p.1 + 1, p.2 + 1))
    else (findOpen rest).map (fun p => (p.1 + 1, p.2 + 1))

/-- Embedding of the inner position loop of the operator-splitting phase of
`parseToken` (src/cpp/main.cpp lines 164-192) for one priority level: scan
left to right for the first character whose operation has exactly this
priority.  `skipFirst` is true exactly when the scan position is index 0 of
the expression and the file is src/cpp/main.cpp, whose lines 183-185 skip a
MIN whose left-hand substring is empty; src/unnamed/part_000 has no such
test and is embedded with `skipFirst = false` throughout. -/
def scanPriority (priority : Nat) (skipFirst : Bool) : List Char → Option (Nat × Operation)
  | [] => none
  | c :: rest =>
    let operation := getOperationFromChar c
    if operation = Operation.NONE ∨ getPriority operation ≠ priority
        ∨ (skipFirst ∧ operation = Operation.MIN) then
      (scanPriority priority false rest).map (fun r => (r.1 + 1, r.2))
    else some (0, operation)

/-- Embedding of the priority loop of `parseToken` (src/cpp/main.cpp lines
162-193): priorities MIN_PRIORITY = 1 up to MAX_PRIORITY = 3, taking the
first level with a match. -/
def findSplit (skipFirst : Bool) (expression : List Char) : Option (Nat × Operation) :=
  match scanPriority 1 skipFirst expression with
  | some r => some r
  | none =>
    match scanPriority 2 skipFirst expression with
    | some r => some r
    | none => scanPriority 3 skipFirst expression

/-- The substring strictly between the parentheses at positions i and j:
C++ `expression.substr(i + 1, j - i - 1)`. -/
def subExpr (expression : List Char) (i j : Nat) : List Char :=
  (expression.drop (i + 1)).take (j - i - 1)

/-- The spliced string `expression.substr(0, i) + std::to_string(value) +
expression.substr(j + 1)` of src/cpp/main.cpp line 152. -/
def spliceExpr (expression : List Char) (i j : Nat) (value : ℚ) : List Char :=
  expression.take i ++ toString6 value ++ expression.drop (j + 1)

/-- Embedding of `parseToken` (src/cpp/main.cpp lines 128-197 and
src/unnamed/part_000 lines 120-185).  The two files differ in exactly one
place: src/cpp/main.cpp lines 183-185 skip a '-' whose left substring is
empty; the flag `skipLeadingMinus` selects that behaviour.  The `fuel`
argument bounds the recursion depth (the C++ recursion terminates on every
input; fuel running out yields `none` and every theorem below either holds
for all fuel values or exhibits a fuel checked to be sufficient). -/
def parseTokenGo (skipLeadingMinus : Bool) : Nat → List Char → Option Token
  | 0, _ => none
  | fuel + 1, expression =>
    match findOpen expression with
    | some (i, j) =>
      (parseTokenGo skipLeadingMinus fuel (subExpr expression i j)).bind fun t =>
        parseTokenGo skipLeadingMinus fuel (spliceExpr expression i j (resolve t))
    | none =>
      match findSplit skipLeadingMinus expression with
      | some (i, operation) =>
        (parseTokenGo skipLeadingMinus fuel (expression.take i)).bind fun a =>
          (parseTokenGo skipLeadingMinus fuel (expression.drop (i + 1))).map fun b =>
            Token.OperationToken operation a b
      | none => (parseNumber expression).map Token.NumberToken

/-- `parseToken` of src/cpp/main.cpp (with the leading-minus skip). -/
def parseToken (fuel : Nat) (expression : List Char) : Option Token :=
  parseTokenGo true fuel expression

/-- `parseToken` of src/unnamed/part_000 (no leading-minus skip). -/
def parseTokenPart000 (fuel : Nat) (expression : List Char) : Option Token :=
  parseTokenGo false fuel expression

/-- Embedding of `compileExpression` (src/cpp/main.cpp lines 199-204):
erase every space character, then parse. -/
def compileExpression (fuel : Nat) (expression : List Char) : Option Token :=
  parseToken fuel (expression.filter (fun c => c ≠ ' '))

/-- Compile-then-evaluate on a string, as the interactive shell does
(compile, then call resolve on the root).  Fuel 64 is far beyond the
recursion depth of every concrete example below. -/
def evalExpr (s : String) : Option ℚ :=
  (compileExpression 64 s.toList).map resolve

end Calculator

namespace Calculator

/-! ### Basic facts about the embedded definitions -/

theorem parseTokenGo_zero (skip : Bool) (cs : List Char) :
    parseTokenGo skip 0 cs = none := rfl

theorem parseTokenGo_succ (skip : Bool) (fuel : Nat) (cs : List Char) :
    parseTokenGo skip (fuel + 1) cs =
      match findOpen cs with
      | some (i, j) =>
        (parseTokenGo skip fuel (subExpr cs i j)).bind fun t =>
          parseTokenGo skip fuel (spliceExpr cs i j (resolve t))
      | none =>
        match findSplit skip cs with
        | some (i, operation) =>
          (parseTokenGo skip fuel (cs.take i)).bind fun a =>
            (parseTokenGo skip fuel (cs.drop (i + 1))).map fun b =>
              Token.OperationToken operation a b
        | none => (parseNumber cs).map Token.NumberToken := rfl

theorem getOperationFromChar_eq_NONE {c : Char} (h1 : c ≠ '+') (h2 : c ≠ '-')
    (h3 : c ≠ '*') (h4 : c ≠ '/') (h5 : c ≠ '^') :
    getOperationFromChar c = Operation.NONE := by
  simp [getOperationFromChar, h1, h2, h3, h4, h5]

theorem getOperationFromChar_eq_MIN {c : Char} :
    getOperationFromChar c = Operation.MIN ↔ c = '-' := by
  unfold getOperationFromChar
  split_ifs with h1 h2 h3 h4 h5 <;> simp_all

theorem getOperationFromChar_of_isDigit {c : Char} (h : c.isDigit) :
    getOperationFromChar c = Operation.NONE := by
  apply getOperationFromChar_eq_NONE <;> (rintro rfl; revert h; decide)

theorem getOperationFromChar_dot : getOperationFromChar '.' = Operation.NONE := by decide

theorem getPriority_le_three (operation : Operation) : getPriority operation ≤ 3 := by
  cases operation <;> decide

theorem getPriority_pos_of_ne_NONE {operation : Operation}
    (h : operation ≠ Operation.NONE) : 1 ≤ getPriority operation := by
  cases operation <;> first | rfl | decide | exact absurd rfl h

/-! ### Characters produced by the numeric formatting -/

theorem charOfNat_digit {n : Nat} (hn : n < 10) : (Char.ofNat (48 + n)).isDigit := by
  interval_cases n <;> decide

theorem natDigitsAux_isDigit (fuel : Nat) :
    ∀ (n : Nat) (acc : List Char), (∀ c ∈ acc, c.isDigit) →
      ∀ c ∈ natDigitsAux fuel n acc, c.isDigit := by
  induction fuel with
  | zero => intro n acc hacc c hc; exact hacc c hc
  | succ f ih =>
    intro n acc hacc c hc
    rw [natDigitsAux] at hc
    by_cases hn : n < 10
    · rw [if_pos hn] at hc
      rcases List.mem_cons.mp hc with rfl | hc
      · exact charOfNat_digit hn
      · exact hacc c hc
    · rw [if_neg hn] at hc
      refine ih (n / 10) _ ?_ c hc
      intro d hd
      rcases List.mem_cons.mp hd with rfl | hd
      · exact charOfNat_digit (Nat.mod_lt _ (by norm_num))
      · exact hacc d hd

theorem natDigits_isDigit (n : Nat) : ∀ c ∈ natDigits n, c.isDigit :=
  natDigitsAux_isDigit (n + 1) n [] (by intro c hc; cases hc)

theorem toString6_chars {q : ℚ} {c : Char} (hc : c ∈ toString6 q) :
    c.isDigit ∨ c = '.' ∨ (c = '-' ∧ q < 0) := by
  simp only [toString6, List.mem_append] at hc
  rcases hc with (((h | h) | h) | h) | h
  · split at h
    · rcases List.mem_cons.mp h with rfl | h
      · exact Or.inr (Or.inr ⟨rfl, by assumption⟩)
      · cases h
    · cases h
  · exact Or.inl (natDigits_isDigit _ c h)
  · rcases List.mem_cons.mp h with rfl | h
    · exact Or.inr (Or.inl rfl)
    · cases h
  · rw [List.eq_of_mem_replicate h]; exact Or.inl (by decide)
  · exact Or.inl (natDigits_isDigit _ c h)

theorem toString6_no_minus {q : ℚ} (hq : 0 ≤ q) : '-' ∉ toString6 q := by
  intro hc
  rcases toString6_chars hc with h | h | ⟨_, h⟩
  · exact absurd h (by decide)
  · exact absurd h (by decide)
  · exact absurd hq (not_le.mpr h)

theorem mem_subExpr {cs : List Char} {i j : Nat} {c : Char}
    (h : c ∈ subExpr cs i j) : c ∈ cs :=
  List.drop_subset _ _ (List.take_subset _ _ h)

theorem mem_spliceExpr {cs : List Char} {i j : Nat} {v : ℚ} {c : Char}
    (h : c ∈ spliceExpr cs i j v) : c ∈ cs ∨ c ∈ toString6 v := by
  unfold spliceExpr at h
  simp only [List.mem_append] at h
  rcases h with (h | h) | h
  · exact Or.inl (List.take_subset _ _ h)
  · exact Or.inr h
  · exact Or.inl (List.drop_subset _ _ h)

end Calculator

namespace Calculator

/-! ### Specification of the parenthesis scan -/

theorem scanClose_spec :
    ∀ (cs : List Char) (opens closes k : Nat), scanClose cs opens closes = some k →
      closes < opens → k < cs.length ∧ cs[k]? = some ')' := by
  intro cs
  induction cs with
  | nil => intro opens closes k h _; cases h
  | cons c rest ih =>
    intro opens closes k h hlt
    simp only [scanClose] at h
    by_cases h1 : c = '('
    · have h2 : ¬c = ')' := by subst h1; decide
      rw [if_pos h1, if_neg h2, if_neg (by omega : ¬opens + 1 = closes)] at h
      obtain ⟨k', hk', rfl⟩ := Option.map_eq_some'.mp h
      obtain ⟨ha, hb⟩ := ih (opens + 1) closes k' hk' (by omega)
      exact ⟨by simpa using Nat.succ_lt_succ ha, by simpa using hb⟩
    · rw [if_neg h1] at h
      by_cases h2 : c = ')'
      · rw [if_pos h2] at h
        by_cases h3 : opens = closes + 1
        · rw [if_pos h3] at h
          obtain rfl : (0 : Nat) = k := Option.some.inj h
          exact ⟨Nat.succ_pos _, by simp [h2]⟩
        · rw [if_neg h3] at h
          obtain ⟨k', hk', rfl⟩ := Option.map_eq_some'.mp h
          obtain ⟨ha, hb⟩ := ih opens (closes + 1) k' hk' (by omega)
          exact ⟨by simpa using Nat.succ_lt_succ ha, by simpa using hb⟩
      · rw [if_neg h2, if_neg (by omega : ¬opens = closes)] at h
        obtain ⟨k', hk', rfl⟩ := Option.map_eq_some'.mp h
        obtain ⟨ha, hb⟩ := ih opens closes k' hk' hlt
        exact ⟨by simpa using Nat.succ_lt_succ ha, by simpa using hb⟩


theorem findOpen_some :
    ∀ (cs : List Char) (i j : Nat), findOpen cs = some (i, j) →
      i < j ∧ j < cs.length ∧ cs[i]? = some '(' ∧ cs[j]? = some ')' := by
  intro cs
  induction cs with
  | nil => intro i j h; cases h
  | cons c rest ih =>
    intro i j h
    rw [findOpen] at h
    by_cases hc : c = '('
    · rw [if_pos hc] at h
      cases hsc : scanClose rest 1 0 with
      | some k =>
        rw [hsc] at h
        obtain ⟨rfl, rfl⟩ := Prod.mk.injEq .. ▸ Option.some.inj h
        obtain ⟨ha, hb⟩ := scanClose_spec rest 1 0 k hsc (by omega)
        exact ⟨Nat.succ_pos _, by simpa using Nat.succ_lt_succ ha, by simp [hc], by simpa using hb⟩
      | none =>
        rw [hsc] at h
        obtain ⟨⟨a, b⟩, hab, heq⟩ := Option.map_eq_some'.mp h
        obtain ⟨rfl, rfl⟩ := Prod.mk.injEq .. ▸ heq
        obtain ⟨h1, h2, h3, h4⟩ := ih a b hab
        exact ⟨Nat.succ_lt_succ h1, by simpa using Nat.succ_lt_succ h2, by simpa using h3,
          by simpa using h4⟩
    · rw [if_neg hc] at h
      obtain ⟨⟨a, b⟩, hab, heq⟩ := Option.map_eq_some'.mp h
      obtain ⟨rfl, rfl⟩ := Prod.mk.injEq .. ▸ heq
      obtain ⟨h1, h2, h3, h4⟩ := ih a b hab
      exact ⟨Nat.succ_lt_succ h1, by simpa using Nat.succ_lt_succ h2, by simpa using h3,
        by simpa using h4⟩

theorem findOpen_eq_none {cs : List Char} (h : '(' ∉ cs) : findOpen cs = none := by
  induction cs with
  | nil => rfl
  | cons c rest ih =>
    rw [findOpen, if_neg (fun hc => h (List.mem_cons.mpr (Or.inl hc.symm))),
      ih (fun hr => h (List.mem_cons_of_mem _ hr))]
    rfl


/-! ### Specification of the operator scan -/

theorem scanPriority_some :
    ∀ (cs : List Char) (p : Nat) (skip : Bool) (i : Nat) (op : Operation),
      scanPriority p skip cs = some (i, op) →
      i < cs.length ∧
      (∃ c, cs[i]? = some c ∧ getOperationFromChar c = op) ∧
      op ≠ Operation.NONE ∧ getPriority op = p ∧
      ∀ k, k < i → ∀ c, cs[k]? = some c →
        getOperationFromChar c = Operation.NONE ∨
          getPriority (getOperationFromChar c) ≠ p ∨
          (skip = true ∧ k = 0 ∧ getOperationFromChar c = Operation.MIN) := by
  intro cs
  induction cs with
  | nil => intro p skip i op h; cases h
  | cons c rest ih =>
    intro p skip i op h
    rw [scanPriority] at h
    by_cases hcond : getOperationFromChar c = Operation.NONE ∨
        getPriority (getOperationFromChar c) ≠ p ∨
        (skip ∧ getOperationFromChar c = Operation.MIN)
    · rw [if_pos hcond] at h
      obtain ⟨⟨a, b⟩, hab, heq⟩ := Option.map_eq_some'.mp h
      obtain ⟨rfl, rfl⟩ := Prod.mk.injEq .. ▸ heq
      obtain ⟨h1, h2, h3, h4, h5⟩ := ih p false a _ hab
      refine ⟨Nat.succ_lt_succ h1, ?_, h3, h4, ?_⟩
      · obtain ⟨c', hc', hop⟩ := h2
        exact ⟨c', by simpa using hc', hop⟩
      · intro k hk c' hc'
        match k with
        | 0 =>
          simp only [List.getElem?_cons_zero, Option.some.injEq] at hc'
          subst hc'
          rcases hcond with hx | hx | ⟨hs, hx⟩
          · exact Or.inl hx
          · exact Or.inr (Or.inl hx)
          · exact Or.inr (Or.inr ⟨hs, rfl, hx⟩)
        | k + 1 =>
          simp only [List.getElem?_cons_succ] at hc'
          rcases h5 k (by omega) c' hc' with hx | hx | ⟨hs, _, _⟩
          · exact Or.inl hx
          · exact Or.inr (Or.inl hx)
          · cases hs
    · rw [if_neg hcond] at h
      obtain ⟨rfl, rfl⟩ := Prod.mk.injEq .. ▸ Option.some.inj h
      push_neg at hcond
      obtain ⟨h1, h2, _⟩ := hcond
      exact ⟨Nat.succ_pos _, ⟨c, by simp, rfl⟩, h1, h2, fun k hk => absurd hk (by omega)⟩

theorem scanPriority_none :
    ∀ (cs : List Char) (p : Nat) (skip : Bool), scanPriority p skip cs = none →
      ∀ k c, cs[k]? = some c →
        getOperationFromChar c = Operation.NONE ∨
          getPriority (getOperationFromChar c) ≠ p ∨
          (skip = true ∧ k = 0 ∧ getOperationFromChar c = Operation.MIN) := by
  intro cs
  induction cs with
  | nil => intro p skip _ k c hc; simp at hc
  | cons c0 rest ih =>
    intro p skip h k c hc
    rw [scanPriority] at h
    by_cases hcond : getOperationFromChar c0 = Operation.NONE ∨
        getPriority (getOperationFromChar c0) ≠ p ∨
        (skip ∧ getOperationFromChar c0 = Operation.MIN)
    · rw [if_pos hcond] at h
      have hrest : scanPriority p false rest = none := by
        cases hr : scanPriority p false rest with
        | none => rfl
        | some r => rw [hr] at h; cases h
      match k with
      | 0 =>
        simp only [List.getElem?_cons_zero, Option.some.injEq] at hc
        subst hc
        rcases hcond with hx | hx | ⟨hs, hx⟩
        · exact Or.inl hx
        · exact Or.inr (Or.inl hx)
        · exact Or.inr (Or.inr ⟨hs, rfl, hx⟩)
      | k + 1 =>
        simp only [List.getElem?_cons_succ] at hc
        rcases ih p false hrest k c hc with hx | hx | ⟨hs, _, _⟩
        · exact Or.inl hx
        · exact Or.inr (Or.inl hx)
        · cases hs
    · rw [if_neg hcond] at h
      cases h

theorem scanPriority_none_of_all (p : Nat) :
    ∀ cs : List Char, (∀ c ∈ cs, getOperationFromChar c = Operation.NONE) →
      ∀ skip : Bool, scanPriority p skip cs = none := by
  intro cs
  induction cs with
  | nil => intro _ _; rfl
  | cons c rest ih =>
    intro h skip
    rw [scanPriority, if_pos (Or.inl (h c (List.mem_cons_self c rest))),
      ih (fun d hd => h d (List.mem_cons_of_mem _ hd)) false]
    rfl

theorem scanPriority_minus_cons (p : Nat) (cs : List Char)
    (h : ∀ c ∈ cs, getOperationFromChar c = Operation.NONE) :
    scanPriority p true ('-' :: cs) = none := by
  rw [scanPriority, if_pos (Or.inr (Or.inr ⟨rfl, by decide⟩)),
    scanPriority_none_of_all p cs h false]
  rfl

theorem findSplit_none_spec {skip : Bool} {cs : List Char}
    (h : findSplit skip cs = none) :
    ∀ k c, cs[k]? = some c → getOperationFromChar c ≠ Operation.NONE →
      skip = true ∧ k = 0 ∧ getOperationFromChar c = Operation.MIN := by
  intro k c hc hop
  unfold findSplit at h
  have h1 : scanPriority 1 skip cs = none := by
    cases hs : scanPriority 1 skip cs with
    | none => rfl
    | some r => rw [hs] at h; cases h
  rw [h1] at h
  have h2 : scanPriority 2 skip cs = none := by
    cases hs : scanPriority 2 skip cs with
    | none => rfl
    | some r => rw [hs] at h; cases h
  rw [h2] at h
  have hp : 1 ≤ getPriority (getOperationFromChar c) := getPriority_pos_of_ne_NONE hop
  have hp3 : getPriority (getOperationFromChar c) ≤ 3 := getPriority_le_three _
  interval_cases hpe : getPriority (getOperationFromChar c)
  · rcases scanPriority_none cs 1 skip h1 k c hc with hx | hx | hx
    · exact absurd hx hop
    · exact absurd hpe hx
    · exact hx
  · rcases scanPriority_none cs 2 skip h2 k c hc with hx | hx | hx
    · exact absurd hx hop
    · exact absurd hpe hx
    · exact hx
  · rcases scanPriority_none cs 3 skip h k c hc with hx | hx | hx
    · exact absurd hx hop
    · exact absurd hpe hx
    · exact hx


theorem findSplit_some_spec {skip : Bool} {cs : List Char} {i : Nat} {op : Operation}
    (h : findSplit skip cs = some (i, op)) :
    i < cs.length ∧
    (∃ c, cs[i]? = some c ∧ getOperationFromChar c = op) ∧
    op ≠ Operation.NONE ∧
    1 ≤ getPriority op ∧ getPriority op ≤ 3 ∧
    (∀ k c, cs[k]? = some c → getOperationFromChar c ≠ Operation.NONE →
        getPriority (getOperationFromChar c) < getPriority op →
        skip = true ∧ k = 0 ∧ getOperationFromChar c = Operation.MIN) ∧
    (∀ k c, k < i → cs[k]? = some c → getOperationFromChar c ≠ Operation.NONE →
        getPriority (getOperationFromChar c) = getPriority op →
        skip = true ∧ k = 0 ∧ getOperationFromChar c = Operation.MIN) := by
  unfold findSplit at h
  cases hs1 : scanPriority 1 skip cs with
  | some r =>
    rw [hs1] at h
    obtain rfl : r = (i, op) := Option.some.inj h
    obtain ⟨h1, h2, h3, h4, h5⟩ := scanPriority_some cs 1 skip i op hs1
    refine ⟨h1, h2, h3, by omega, by omega, ?_, ?_⟩
    · intro k c _ hne hlt
      rw [h4] at hlt
      exact absurd (getPriority_pos_of_ne_NONE hne) (by omega)
    · intro k c hk hc hne hpe
      rcases h5 k hk c hc with hx | hx | hx
      · exact absurd hx hne
      · exact absurd (hpe.trans h4) hx
      · exact hx
  | none =>
    rw [hs1] at h
    cases hs2 : scanPriority 2 skip cs with
    | some r =>
      rw [hs2] at h
      obtain rfl : r = (i, op) := Option.some.inj h
      obtain ⟨h1, h2, h3, h4, h5⟩ := scanPriority_some cs 2 skip i op hs2
      refine ⟨h1, h2, h3, by omega, by omega, ?_, ?_⟩
      · intro k c hc hne hlt
        rw [h4] at hlt
        have hge := getPriority_pos_of_ne_NONE hne
        have hp1 : getPriority (getOperationFromChar c) = 1 := by omega
        rcases scanPriority_none cs 1 skip hs1 k c hc with hx | hx | hx
        · exact absurd hx hne
        · exact absurd hp1 hx
        · exact hx
      · intro k c hk hc hne hpe
        rcases h5 k hk c hc with hx | hx | hx
        · exact absurd hx hne
        · exact absurd (hpe.trans h4) hx
        · exact hx
    | none =>
      rw [hs2] at h
      obtain ⟨h1, h2, h3, h4, h5⟩ := scanPriority_some cs 3 skip i op h
      refine ⟨h1, h2, h3, by omega, by omega, ?_, ?_⟩
      · intro k c hc hne hlt
        rw [h4] at hlt
        have hge := getPriority_pos_of_ne_NONE hne
        have hp12 : getPriority (getOperationFromChar c) = 1 ∨
            getPriority (getOperationFromChar c) = 2 := by omega
        rcases hp12 with hp | hp
        · rcases scanPriority_none cs 1 skip hs1 k c hc with hx | hx | hx
          · exact absurd hx hne
          · exact absurd hp hx
          · exact hx
        · rcases scanPriority_none cs 2 skip hs2 k c hc with hx | hx | hx
          · exact absurd hx hne
          · exact absurd hp hx
          · exact hx
      · intro k c hk hc hne hpe
        rcases h5 k hk c hc with hx | hx | hx
        · exact absurd hx hne
        · exact absurd (hpe.trans h4) hx
        · exact hx

theorem findSplit_none_of_minus_lit {cs : List Char}
    (h : ∀ c ∈ cs, getOperationFromChar c = Operation.NONE) :
    findSplit true ('-' :: cs) = none := by
  unfold findSplit
  rw [scanPriority_minus_cons 1 cs h, scanPriority_minus_cons 2 cs h,
    scanPriority_minus_cons 3 cs h]

theorem findSplit_none_of_all {cs : List Char} (skip : Bool)
    (h : ∀ c ∈ cs, getOperationFromChar c = Operation.NONE) :
    findSplit skip cs = none := by
  unfold findSplit
  rw [scanPriority_none_of_all 1 cs h skip, scanPriority_none_of_all 2 cs h skip,
    scanPriority_none_of_all 3 cs h skip]


/-! ### takeWhile and dropWhile helpers for the literal lemmas -/

theorem takeWhile_eq_self_of_all {p : Char → Bool} :
    ∀ {l : List Char}, (∀ c ∈ l, p c) → l.takeWhile p = l := by
  intro l
  induction l with
  | nil => intro _; rfl
  | cons c rest ih =>
    intro h
    rw [List.takeWhile_cons, if_pos (h c (List.mem_cons_self c rest)),
      ih (fun d hd => h d (List.mem_cons_of_mem _ hd))]

theorem dropWhile_eq_nil_of_all {p : Char → Bool} :
    ∀ {l : List Char}, (∀ c ∈ l, p c) → l.dropWhile p = [] := by
  intro l
  induction l with
  | nil => intro _; rfl
  | cons c rest ih =>
    intro h
    rw [List.dropWhile_cons, if_pos (h c (List.mem_cons_self c rest))]
    exact ih (fun d hd => h d (List.mem_cons_of_mem _ hd))

theorem takeWhile_append_stop {p : Char → Bool} {c : Char} (hc : p c = false) :
    ∀ {l : List Char} (r : List Char), (∀ x ∈ l, p x) →
      (l ++ c :: r).takeWhile p = l := by
  intro l
  induction l with
  | nil => intro r _; simp [List.takeWhile_cons, hc]
  | cons d rest ih =>
    intro r h
    rw [List.cons_append, List.takeWhile_cons, if_pos (h d (List.mem_cons_self d rest)),
      ih r (fun x hx => h x (List.mem_cons_of_mem _ hx))]

theorem dropWhile_append_stop {p : Char → Bool} {c : Char} (hc : p c = false) :
    ∀ {l : List Char} (r : List Char), (∀ x ∈ l, p x) →
      (l ++ c :: r).dropWhile p = c :: r := by
  intro l
  induction l with
  | nil => intro r _; simp [List.dropWhile_cons, hc]
  | cons d rest ih =>
    intro r h
    rw [List.cons_append, List.dropWhile_cons, if_pos (h d (List.mem_cons_self d rest))]
    exact ih r (fun x hx => h x (List.mem_cons_of_mem _ hx))


/-! ### Facts about strtod -/

theorem parseMantissa_nonneg {cs rest : List Char} {m : ℚ}
    (h : parseMantissa cs = (some m, rest)) : 0 ≤ m := by
  simp only [parseMantissa] at h
  split at h
  all_goals split at h
  all_goals simp only [Prod.mk.injEq, Option.some.injEq, reduceCtorEq, false_and] at h
  all_goals obtain ⟨rfl, -⟩ := h
  all_goals positivity

theorem strtod_nonneg {cs : List Char} {q : ℚ} (hhd : ¬cs.head? = some '-')
    (h : (strtod cs).1 = some q) : 0 ≤ q := by
  simp only [strtod, if_neg hhd] at h
  cases hm : parseMantissa (if cs.head? = some '-' ∨ cs.head? = some '+' then cs.tail else cs) with
  | mk om rest =>
    rw [hm] at h
    cases om with
    | none => simp at h
    | some m =>
      simp only [Option.some.injEq] at h
      have hm0 : 0 ≤ m := parseMantissa_nonneg hm
      rw [← h]
      exact mul_nonneg (mul_nonneg (by norm_num) hm0) (zpow_nonneg (by norm_num) _)


theorem isDigit_ne {c : Char} (h : c.isDigit = true) {d : Char}
    (hd : d.isDigit = false) : c ≠ d := by
  intro he
  subst he
  rw [h] at hd
  cases hd

theorem parseMantissa_shape (dot : Bool) (ip fp : List Char)
    (hip : ∀ c ∈ ip, c.isDigit) (hfp : ∀ c ∈ fp, c.isDigit)
    (hdot : dot = false → fp = []) (hne : ip ≠ [] ∨ fp ≠ []) :
    parseMantissa (ip ++ (if dot then '.' :: fp else [])) =
      (some ((digitsVal ip : ℚ) + (digitsVal fp : ℚ) / 10 ^ fp.length), []) := by
  cases dot with
  | false =>
    obtain rfl : fp = [] := hdot rfl
    have hipne : ip ≠ [] := by
      rcases hne with h | h
      · exact h
      · exact absurd rfl h
    simp [parseMantissa, takeWhile_eq_self_of_all hip, dropWhile_eq_nil_of_all hip, hipne]
  | true =>
    have hne2 : ¬(ip = [] ∧ fp = []) := by
      rcases hne with h | h
      · exact fun hx => h hx.1
      · exact fun hx => h hx.2
    simp only [if_true, parseMantissa,
      takeWhile_append_stop (by decide : ('.' : Char).isDigit = false) _ hip,
      dropWhile_append_stop (by decide : ('.' : Char).isDigit = false) _ hip,
      List.head?_cons, List.tail_cons,
      takeWhile_eq_self_of_all hfp, dropWhile_eq_nil_of_all hfp]
    simp [hne2]

theorem parseExponentPart_nil : parseExponentPart [] = (0, []) := by decide

theorem strtod_decimal_shape (neg dot : Bool) (ip fp : List Char)
    (hip : ∀ c ∈ ip, c.isDigit) (hfp : ∀ c ∈ fp, c.isDigit)
    (hdot : dot = false → fp = []) (hne : ip ≠ [] ∨ fp ≠ []) :
    strtod ((if neg then ['-'] else []) ++ ip ++ (if dot then '.' :: fp else [])) =
      (some ((if neg then (-1 : ℚ) else 1) *
        ((digitsVal ip : ℚ) + (digitsVal fp : ℚ) / 10 ^ fp.length)), []) := by
  have hmant := parseMantissa_shape dot ip fp hip hfp hdot hne
  cases neg with
  | true =>
    simp only [if_true, List.cons_append, List.nil_append]
    rw [strtod]
    simp only [List.head?_cons, List.tail_cons, Option.some.injEq, if_true, true_or,
      hmant, parseExponentPart_nil, zpow_zero, mul_one]
  | false =>
    simp only [Bool.false_eq_true, if_false, List.nil_append]
    have hhd : ∀ d : Char, (ip ++ (if dot then '.' :: fp else [])).head? = some d →
        d.isDigit ∨ d = '.' := by
      intro d hd
      cases ip with
      | cons c rest =>
        simp only [List.cons_append, List.head?_cons, Option.some.injEq] at hd
        exact Or.inl (hd ▸ hip c (List.mem_cons_self c rest))
      | nil =>
        cases dot with
        | false =>
          obtain rfl : fp = [] := hdot rfl
          simp at hd
        | true =>
          simp only [List.nil_append, if_true, List.head?_cons,
            Option.some.injEq] at hd
          exact Or.inr hd.symm
    have hm : ¬(ip ++ (if dot then '.' :: fp else [])).head? = some '-' := by
      intro hx
      rcases hhd '-' hx with h | h
      · exact absurd h (by decide)
      · cases h
    have hp : ¬(ip ++ (if dot then '.' :: fp else [])).head? = some '+' := by
      intro hx
      rcases hhd '+' hx with h | h
      · exact absurd h (by decide)
      · cases h
    rw [strtod]
    simp only [if_neg hm, if_neg (show ¬((ip ++ (if dot then '.' :: fp else [])).head? = some '-' ∨
        (ip ++ (if dot then '.' :: fp else [])).head? = some '+') by
      rintro (hx | hx); exacts [hm hx, hp hx]), hmant, parseExponentPart_nil,
      zpow_zero, mul_one]


/-! ### Nonnegativity and skip-flag agreement on minus-free input -/

theorem head_ne_minus {cs : List Char} (hm : '-' ∉ cs) : ¬cs.head? = some '-' := by
  cases cs with
  | nil => simp
  | cons c rest =>
    simp only [List.head?_cons, Option.some.injEq]
    intro hx
    exact hm (hx ▸ List.mem_cons_self c rest)

theorem parseNumber_nonneg {cs : List Char} {q : ℚ} (hm : '-' ∉ cs)
    (h : parseNumber cs = some q) : 0 ≤ q := by
  unfold parseNumber at h
  split_ifs at h with h1 h2
  · obtain rfl := Option.some.inj h
    norm_num [PI]
  · obtain rfl := Option.some.inj h
    norm_num [E]
  · exact strtod_nonneg (head_ne_minus hm) h

theorem parseTokenGo_nonneg :
    ∀ (fuel : Nat) (cs : List Char) (t : Token), '-' ∉ cs →
      parseTokenGo true fuel cs = some t → 0 ≤ resolve t := by
  intro fuel
  induction fuel with
  | zero => intro cs t _ h; cases h
  | succ f ih =>
    intro cs t hm h
    rw [parseTokenGo_succ] at h
    cases hfo : findOpen cs with
    | some ij =>
      obtain ⟨i, j⟩ := ij
      simp only [hfo] at h
      obtain ⟨t1, ht1, ht2⟩ := Option.bind_eq_some.mp h
      have hsubm : '-' ∉ subExpr cs i j := fun hx => hm (mem_subExpr hx)
      have h1 : 0 ≤ resolve t1 := ih _ t1 hsubm ht1
      have hsplm : '-' ∉ spliceExpr cs i j (resolve t1) := by
        intro hx
        rcases mem_spliceExpr hx with hx | hx
        · exact hm hx
        · exact toString6_no_minus h1 hx
      exact ih _ t hsplm ht2
    | none =>
      simp only [hfo] at h
      cases hfs : findSplit true cs with
      | some iop =>
        obtain ⟨i, op⟩ := iop
        simp only [hfs] at h
        obtain ⟨a, ha, hb⟩ := Option.bind_eq_some.mp h
        obtain ⟨b, hb1, hb2⟩ := Option.map_eq_some'.mp hb
        subst hb2
        have hna : '-' ∉ cs.take i := fun hx => hm (List.take_subset _ _ hx)
        have hnb : '-' ∉ cs.drop (i + 1) := fun hx => hm (List.drop_subset _ _ hx)
        have ha0 := ih _ a hna ha
        have hb0 := ih _ b hnb hb1
        obtain ⟨hlen, ⟨c, hc, hcop⟩, hne, -⟩ := findSplit_some_spec hfs
        have hopmin : op ≠ Operation.MIN := by
          intro hx
          subst hx
          have hcm : c = '-' := getOperationFromChar_eq_MIN.mp hcop
          exact hm (hcm ▸ List.getElem?_mem hc)
        cases op with
        | NONE => simp [resolve]
        | SUM => simpa [resolve] using add_nonneg ha0 hb0
        | MIN => exact absurd rfl hopmin
        | MUL => simpa [resolve] using mul_nonneg ha0 hb0
        | DIV => simpa [resolve] using div_nonneg ha0 hb0
        | POW =>
          simp only [resolve, powQ]
          split
          · exact zpow_nonneg ha0 _
          · exact le_refl 0
      | none =>
        simp only [hfs] at h
        obtain ⟨q, hq, rfl⟩ := Option.map_eq_some'.mp h
        simpa [resolve] using parseNumber_nonneg hm hq

theorem scanPriority_skip_eq {p : Nat} {cs : List Char} (h : ¬cs.head? = some '-') :
    scanPriority p true cs = scanPriority p false cs := by
  cases cs with
  | nil => rfl
  | cons c rest =>
    have hmin : getOperationFromChar c ≠ Operation.MIN := by
      intro hx
      apply h
      rw [List.head?_cons, getOperationFromChar_eq_MIN.mp hx]
    rw [scanPriority, scanPriority]
    refine if_congr ?_ rfl rfl
    simp [hmin]

theorem findSplit_skip_eq {cs : List Char} (h : ¬cs.head? = some '-') :
    findSplit true cs = findSplit false cs := by
  unfold findSplit
  rw [scanPriority_skip_eq h, scanPriority_skip_eq h, scanPriority_skip_eq h]

theorem parseTokenGo_skip_agree :
    ∀ (fuel : Nat) (cs : List Char), '-' ∉ cs →
      parseTokenGo true fuel cs = parseTokenGo false fuel cs := by
  intro fuel
  induction fuel with
  | zero => intro cs _; rfl
  | succ f ih =>
    intro cs hm
    rw [parseTokenGo_succ, parseTokenGo_succ]
    cases hfo : findOpen cs with
    | some ij =>
      obtain ⟨i, j⟩ := ij
      simp only [hfo]
      have hsubm : '-' ∉ subExpr cs i j := fun hx => hm (mem_subExpr hx)
      rw [ih _ hsubm]
      cases hsub : parseTokenGo false f (subExpr cs i j) with
      | none => rfl
      | some t =>
        simp only [Option.some_bind]
        have ht : 0 ≤ resolve t :=
          parseTokenGo_nonneg f _ t hsubm (by rw [ih _ hsubm]; exact hsub)
        have hsplm : '-' ∉ spliceExpr cs i j (resolve t) := by
          intro hx
          rcases mem_spliceExpr hx with hx | hx
          · exact hm hx
          · exact toString6_no_minus ht hx
        exact ih _ hsplm
    | none =>
      simp only [hfo, findSplit_skip_eq (head_ne_minus hm)]
      cases hfs : findSplit false cs with
      | some iop =>
        obtain ⟨i, op⟩ := iop
        have hna : '-' ∉ cs.take i := fun hx => hm (List.take_subset _ _ hx)
        have hnb : '-' ∉ cs.drop (i + 1) := fun hx => hm (List.drop_subset _ _ hx)
        simp only [ih _ hna, ih _ hnb]
      | none => rfl


/-! ### Parsing a plain decimal literal -/

theorem lit_body_op_none (dot : Bool) (ip fp : List Char)
    (hip : ∀ c ∈ ip, c.isDigit) (hfp : ∀ c ∈ fp, c.isDigit) :
    ∀ c ∈ ip ++ (if dot then '.' :: fp else []), getOperationFromChar c = Operation.NONE := by
  intro c hc
  rcases List.mem_append.mp hc with hc | hc
  · exact getOperationFromChar_of_isDigit (hip c hc)
  · cases dot with
    | false => simp at hc
    | true =>
      simp only [if_true] at hc
      rcases List.mem_cons.mp hc with rfl | hc
      · decide
      · exact getOperationFromChar_of_isDigit (hfp c hc)

theorem lit_shape_mem {neg dot : Bool} {ip fp : List Char} {c : Char}
    (hc : c ∈ (if neg then ['-'] else []) ++ ip ++ (if dot then '.' :: fp else [])) :
    c = '-' ∨ c ∈ ip ∨ c = '.' ∨ c ∈ fp := by
  rcases List.mem_append.mp hc with hc | hc
  · rcases List.mem_append.mp hc with hc | hc
    · cases neg with
      | false => simp at hc
      | true =>
        simp only [if_true] at hc
        exact Or.inl (List.mem_singleton.mp hc)
    · exact Or.inr (Or.inl hc)
  · cases dot with
    | false => simp at hc
    | true =>
      simp only [if_true] at hc
      rcases List.mem_cons.mp hc with rfl | hc
      · exact Or.inr (Or.inr (Or.inl rfl))
      · exact Or.inr (Or.inr (Or.inr hc))

theorem lit_shape_findOpen (neg dot : Bool) (ip fp : List Char)
    (hip : ∀ c ∈ ip, c.isDigit) (hfp : ∀ c ∈ fp, c.isDigit) :
    findOpen ((if neg then ['-'] else []) ++ ip ++ (if dot then '.' :: fp else [])) = none := by
  apply findOpen_eq_none
  intro hc
  rcases lit_shape_mem hc with h | h | h | h
  · cases h
  · exact absurd (hip _ h) (by decide)
  · cases h
  · exact absurd (hfp _ h) (by decide)

theorem lit_shape_findSplit (neg dot : Bool) (ip fp : List Char)
    (hip : ∀ c ∈ ip, c.isDigit) (hfp : ∀ c ∈ fp, c.isDigit) :
    findSplit true ((if neg then ['-'] else []) ++ ip ++ (if dot then '.' :: fp else [])) =
      none := by
  cases neg with
  | true =>
    simp only [if_true, List.cons_append, List.nil_append]
    exact findSplit_none_of_minus_lit (lit_body_op_none dot ip fp hip hfp)
  | false =>
    simp only [Bool.false_eq_true, if_false, List.nil_append]
    exact findSplit_none_of_all true (lit_body_op_none dot ip fp hip hfp)

theorem lit_shape_has_digit {neg dot : Bool} {ip fp : List Char}
    (hip : ∀ c ∈ ip, c.isDigit) (hfp : ∀ c ∈ fp, c.isDigit)
    (hdot : dot = false → fp = []) (hne : ip ≠ [] ∨ fp ≠ []) :
    ∃ c ∈ (if neg then ['-'] else []) ++ ip ++ (if dot then '.' :: fp else []), c.isDigit := by
  rcases hne with h | h
  · cases ip with
    | nil => exact absurd rfl h
    | cons c rest =>
      refine ⟨c, ?_, hip c (List.mem_cons_self c rest)⟩
      exact List.mem_append.mpr (Or.inl (List.mem_append.mpr (Or.inr (List.mem_cons_self c rest))))
  · cases dot with
    | false => exact absurd (hdot rfl) h
    | true =>
      cases fp with
      | nil => exact absurd rfl h
      | cons c rest =>
        refine ⟨c, ?_, hfp c (List.mem_cons_self c rest)⟩
        refine List.mem_append.mpr (Or.inr ?_)
        simp

theorem parseNumber_lit_shape (neg dot : Bool) (ip fp : List Char)
    (hip : ∀ c ∈ ip, c.isDigit) (hfp : ∀ c ∈ fp, c.isDigit)
    (hdot : dot = false → fp = []) (hne : ip ≠ [] ∨ fp ≠ []) :
    parseNumber ((if neg then ['-'] else []) ++ ip ++ (if dot then '.' :: fp else [])) =
      some ((if neg then (-1 : ℚ) else 1) *
        ((digitsVal ip : ℚ) + (digitsVal fp : ℚ) / 10 ^ fp.length)) := by
  obtain ⟨c, hc, hcd⟩ := @lit_shape_has_digit neg dot ip fp hip hfp hdot hne
  unfold parseNumber
  rw [if_neg, if_neg]
  · rw [strtod_decimal_shape neg dot ip fp hip hfp hdot hne]
  · intro heq
    rw [heq] at hc
    rcases List.mem_singleton.mp hc with rfl
    exact absurd hcd (by decide)
  · intro heq
    rw [heq] at hc
    rcases List.mem_cons.mp hc with rfl | hc2
    · exact absurd hcd (by decide)
    · rcases List.mem_singleton.mp hc2 with rfl
      exact absurd hcd (by decide)

theorem parseTokenGo_lit_shape (fuel : Nat) (neg dot : Bool) (ip fp : List Char)
    (hip : ∀ c ∈ ip, c.isDigit) (hfp : ∀ c ∈ fp, c.isDigit)
    (hdot : dot = false → fp = []) (hne : ip ≠ [] ∨ fp ≠ []) :
    parseTokenGo true (fuel + 1)
        ((if neg then ['-'] else []) ++ ip ++ (if dot then '.' :: fp else [])) =
      some (Token.NumberToken ((if neg then (-1 : ℚ) else 1) *
        ((digitsVal ip : ℚ) + (digitsVal fp : ℚ) / 10 ^ fp.length))) := by
  rw [parseTokenGo_succ]
  simp only [lit_shape_findOpen neg dot ip fp hip hfp,
    lit_shape_findSplit neg dot ip fp hip hfp,
    parseNumber_lit_shape neg dot ip fp hip hfp hdot hne, Option.map_some']


/-! ### The claims -/

/-- Claim C9: the operator classifier is pure and total: `getOperationFromChar`
maps the five operator characters to their operations and every other
character to NONE; `getPriority` maps SUM and MIN to 1, MUL and DIV to 2,
POW to 3, NONE to 0, and its result always lies in [0, 3]. -/
theorem claim9_classifier_total :
    getOperationFromChar '+' = Operation.SUM ∧
    getOperationFromChar '-' = Operation.MIN ∧
    getOperationFromChar '*' = Operation.MUL ∧
    getOperationFromChar '/' = Operation.DIV ∧
    getOperationFromChar '^' = Operation.POW ∧
    (∀ c : Char, c ≠ '+' → c ≠ '-' → c ≠ '*' → c ≠ '/' → c ≠ '^' →
        getOperationFromChar c = Operation.NONE) ∧
    getPriority Operation.SUM = 1 ∧ getPriority Operation.MIN = 1 ∧
    getPriority Operation.MUL = 2 ∧ getPriority Operation.DIV = 2 ∧
    getPriority Operation.POW = 3 ∧ getPriority Operation.NONE = 0 ∧
    (∀ operation : Operation, getPriority operation ≤ 3) :=
  ⟨rfl, rfl, rfl, rfl, rfl,
    fun _ h1 h2 h3 h4 h5 => getOperationFromChar_eq_NONE h1 h2 h3 h4 h5,
    rfl, rfl, rfl, rfl, rfl, rfl, getPriority_le_three⟩

/-- Witness for claim C9 at the concrete character 'a'. -/
theorem claim9_witness : getOperationFromChar 'a' = Operation.NONE :=
  claim9_classifier_total.2.2.2.2.2.1 'a' (by decide) (by decide) (by decide)
    (by decide) (by decide)

/-- Claim C4: `resolve` is a pure structural recursion: a NumberToken
evaluates to its stored value, an OperationToken combines the values of its
children as sum, difference, product, quotient or power according to its
operation (with POW giving the exact integer power whenever the exponent is
an integer), and re-evaluating any node gives the same result. -/
theorem claim4_resolve_structural :
    (∀ value : ℚ, resolve (Token.NumberToken value) = value) ∧
    (∀ a b : Token, resolve (Token.OperationToken Operation.SUM a b) =
        resolve a + resolve b) ∧
    (∀ a b : Token, resolve (Token.OperationToken Operation.MIN a b) =
        resolve a - resolve b) ∧
    (∀ a b : Token, resolve (Token.OperationToken Operation.MUL a b) =
        resolve a * resolve b) ∧
    (∀ a b : Token, resolve (Token.OperationToken Operation.DIV a b) =
        resolve a / resolve b) ∧
    (∀ a b : Token, resolve (Token.OperationToken Operation.POW a b) =
        powQ (resolve a) (resolve b)) ∧
    (∀ (a b : Token) (n : ℤ), resolve b = (n : ℚ) →
        resolve (Token.OperationToken Operation.POW a b) = resolve a ^ n) ∧
    (∀ t : Token, resolve t = resolve t) := by
  refine ⟨fun _ => rfl, fun _ _ => rfl, fun _ _ => rfl, fun _ _ => rfl, fun _ _ => rfl,
    fun _ _ => rfl, ?_, fun _ => rfl⟩
  intro a b n hb
  show powQ (resolve a) (resolve b) = resolve a ^ n
  rw [hb]
  unfold powQ
  rw [if_pos (Rat.den_intCast n), Rat.num_intCast]

/-- Witness for claim C4: the POW node with integer exponent 3. -/
theorem claim4_witness :
    resolve (Token.OperationToken Operation.POW (Token.NumberToken 2)
      (Token.NumberToken 3)) = resolve (Token.NumberToken 2) ^ (3 : ℤ) :=
  claim4_resolve_structural.2.2.2.2.2.2.1 (Token.NumberToken 2) (Token.NumberToken 3) 3
    (by norm_num [resolve])

unseal Rat.add Rat.mul Rat.sub Rat.inv Rat.ofScientific in
/-- Claim C2 counterexample: the code splits at the leftmost operator of the
loosest level, which makes chains of equal-precedence operators
right-associative, not left-associative: "8-3-2" evaluates to 7, not the
claimed 3, and "2\^3\^2" evaluates to 512, not the claimed 64. -/
theorem claim2_counterexample :
    evalExpr "8-3-2" ≠ some 3 ∧ evalExpr "8-3-2" = some 7 ∧
    evalExpr "2^3^2" ≠ some 64 ∧ evalExpr "2^3^2" = some 512 := by
  refine ⟨by decide, by decide, by decide, by decide⟩

unseal Rat.add Rat.mul Rat.sub Rat.inv Rat.ofScientific in
/-- Claim C7 counterexample: "2x" is syntactically malformed (stod leaves the
trailing "x" unconsumed), yet compile does not fail: it silently returns the
numeric value 2 parsed from the prefix. -/
theorem claim7_counterexample :
    evalExpr "2x" = some 2 ∧ (strtod "2x".toList).2 = ['x'] := by
  refine ⟨by decide, by decide⟩

unseal Rat.add Rat.mul Rat.sub Rat.inv Rat.ofScientific in
/-- Claim C7 (amended): malformed inputs whose literal fallback cannot parse
any leading number - such as "2+", "(1+2" and "abc" - make compile fail with
a ParseError (no partial tree is returned, failures propagate to the root);
in general the parser returns an error whenever parenthesis resolution finds
nothing, no operator split applies, and the numeric fallback fails. -/
theorem claim7_malformed_fail :
    evalExpr "2+" = none ∧ evalExpr "(1+2" = none ∧ evalExpr "abc" = none ∧
    (∀ (fuel : Nat) (cs : List Char),
        findOpen cs = none → findSplit true cs = none → parseNumber cs = none →
        parseToken fuel cs = none) := by
  refine ⟨by decide, by decide, by decide, ?_⟩
  intro fuel cs h1 h2 h3
  cases fuel with
  | zero => rfl
  | succ f =>
    unfold parseToken
    rw [parseTokenGo_succ]
    simp only [h1, h2, h3, Option.map_none']

/-- Witness for the amended claim C7 at the concrete input "abc". -/
theorem claim7_witness : parseToken 7 "abc".toList = none :=
  claim7_malformed_fail.2.2.2 7 "abc".toList (by decide) (by decide) (by decide)

unseal Rat.add Rat.mul Rat.sub Rat.inv Rat.ofScientific in
/-- Claim C8 counterexample: "1e+5" is a valid decimal literal (strtod
consumes it entirely and yields 100000), but compile splits it at the '+'
character and evaluates it to 6. -/
theorem claim8_counterexample :
    strtod "1e+5".toList = (some 100000, []) ∧ evalExpr "1e+5" = some 6 := by
  refine ⟨by decide, by decide⟩

/-- Claim C8 (amended): for every decimal literal of the plain form - an
optional '-' sign, then digits, then optionally a decimal point and digits,
with at least one digit and no exponent part and no leading '+' -
compiling and evaluating the literal yields exactly the value that the
literal denotes (the value std::stod parses from it). -/
theorem claim8_literal_roundtrip :
    ∀ (fuel : Nat) (neg dot : Bool) (ip fp : List Char),
      (∀ c ∈ ip, c.isDigit) → (∀ c ∈ fp, c.isDigit) →
      (dot = false → fp = []) → ip ≠ [] ∨ fp ≠ [] →
      (parseToken (fuel + 1)
          ((if neg then ['-'] else []) ++ ip ++ (if dot then '.' :: fp else []))).map
            resolve =
        (strtod ((if neg then ['-'] else []) ++ ip ++ (if dot then '.' :: fp else []))).1 := by
  intro fuel neg dot ip fp hip hfp hdot hne
  unfold parseToken
  rw [parseTokenGo_lit_shape fuel neg dot ip fp hip hfp hdot hne,
    strtod_decimal_shape neg dot ip fp hip hfp hdot hne]
  rfl

/-- Witness for the amended claim C8 at the concrete literal "3.5". -/
theorem claim8_witness :
    (parseToken 1 ((if false then ['-'] else []) ++ ['3'] ++
        (if true then '.' :: ['5'] else []))).map resolve =
      (strtod ((if false then ['-'] else []) ++ ['3'] ++
        (if true then '.' :: ['5'] else []))).1 :=
  claim8_literal_roundtrip 0 false true ['3'] ['5'] (by decide) (by decide)
    (by decide) (by decide)


theorem scanPriority_minus_head (p : Nat) (cs : List Char) {r : Nat × Operation}
    (h : scanPriority p true ('-' :: cs) = some r) : 1 ≤ r.1 := by
  simp only [scanPriority] at h
  rw [if_pos (Or.inr (Or.inr ⟨by trivial, by decide⟩))] at h
  obtain ⟨⟨a, b⟩, -, heq⟩ := Option.map_eq_some'.mp h
  rw [← heq]
  exact Nat.succ_le_succ (Nat.zero_le a)

theorem findSplit_minus_head {cs : List Char} {i : Nat} {op : Operation}
    (h : findSplit true ('-' :: cs) = some (i, op)) : 1 ≤ i := by
  unfold findSplit at h
  cases h1 : scanPriority 1 true ('-' :: cs) with
  | some r =>
    rw [h1] at h
    obtain rfl := Option.some.inj h
    exact scanPriority_minus_head 1 cs h1
  | none =>
    rw [h1] at h
    cases h2 : scanPriority 2 true ('-' :: cs) with
    | some r =>
      rw [h2] at h
      obtain rfl := Option.some.inj h
      exact scanPriority_minus_head 2 cs h2
    | none =>
      rw [h2] at h
      exact scanPriority_minus_head 3 cs h

theorem parseTokenGo_nil (skip : Bool) : ∀ fuel : Nat, parseTokenGo skip fuel [] = none := by
  intro fuel
  cases fuel with
  | zero => rfl
  | succ f => rfl

theorem parseTokenPart000_fails_on_minus :
    ∀ fuel : Nat, parseTokenPart000 fuel "-5+3".toList = none := by
  intro fuel
  cases fuel with
  | zero => rfl
  | succ f =>
    unfold parseTokenPart000
    rw [parseTokenGo_succ]
    have h1 : findOpen "-5+3".toList = none := by decide
    have h2 : findSplit false "-5+3".toList = some (0, Operation.MIN) := by decide
    simp only [h1, h2, List.take_zero, parseTokenGo_nil, Option.none_bind]

unseal Rat.add Rat.mul Rat.sub Rat.inv Rat.ofScientific in
/-- Claim C1: on a string with no parentheses, compile scans precedence
levels 1 (loosest) to 3 (tightest); at the first level with a matching
operator character it splits the string at that operator, recursively
compiles the substring before it and the substring after it, and returns an
OperationToken of that kind combining them (the only characters exempt from
"matching" are a MIN at position 0, the skipped leading minus of claim C5);
in particular evaluate(compile("2+3*4")) = 14. -/
theorem claim1_paren_free_split :
    (∀ (fuel : Nat) (cs : List Char) (i : Nat) (operation : Operation),
        '(' ∉ cs → ')' ∉ cs → findSplit true cs = some (i, operation) →
        parseToken (fuel + 1) cs =
          (parseToken fuel (cs.take i)).bind fun a =>
            (parseToken fuel (cs.drop (i + 1))).map fun b =>
              Token.OperationToken operation a b) ∧
    (∀ (cs : List Char) (i : Nat) (operation : Operation),
        findSplit true cs = some (i, operation) →
        1 ≤ getPriority operation ∧ getPriority operation ≤ 3 ∧
        (∃ c, cs[i]? = some c ∧ getOperationFromChar c = operation) ∧
        (∀ k c, cs[k]? = some c → getOperationFromChar c ≠ Operation.NONE →
          getPriority (getOperationFromChar c) < getPriority operation →
          k = 0 ∧ getOperationFromChar c = Operation.MIN)) ∧
    evalExpr "2+3*4" = some 14 := by
  refine ⟨?_, ?_, by decide⟩
  · intro fuel cs i operation hp _ hsplit
    unfold parseToken
    rw [parseTokenGo_succ]
    simp only [findOpen_eq_none hp, hsplit]
  · intro cs i operation hsplit
    obtain ⟨hlen, hex, hne, hp1, hp3, hmin, -⟩ := findSplit_some_spec hsplit
    exact ⟨hp1, hp3, hex, fun k c hc hne2 hlt => (hmin k c hc hne2 hlt).2⟩

/-- Witness for claim C1: the split of "2+3*4" at the '+' of position 1. -/
theorem claim1_witness :
    parseToken 5 "2+3*4".toList =
      (parseToken 4 ("2+3*4".toList.take 1)).bind fun a =>
        (parseToken 4 ("2+3*4".toList.drop 2)).map fun b =>
          Token.OperationToken Operation.SUM a b :=
  claim1_paren_free_split.1 4 "2+3*4".toList 1 Operation.SUM (by decide) (by decide)
    (by decide)

unseal Rat.add Rat.mul Rat.sub Rat.inv Rat.ofScientific in
/-- Claim C2 (amended): within one precedence level the leftmost matching
operator character is always the split point (only a minus at position 0 is
exempt); because the whole remainder of the chain becomes the right operand,
chains of equal-precedence operators parse right-associatively for all five
operators: evaluate(compile("8-3-2")) = 7, i.e. 8-(3-2), and
evaluate(compile("2\^3\^2")) = 512, i.e. 2\^(3\^2). -/
theorem claim2_leftmost_right_assoc :
    (∀ (cs : List Char) (i : Nat) (operation : Operation),
        findSplit true cs = some (i, operation) →
        ∀ k c, k < i → cs[k]? = some c → getOperationFromChar c ≠ Operation.NONE →
          getPriority (getOperationFromChar c) = getPriority operation →
          k = 0 ∧ getOperationFromChar c = Operation.MIN) ∧
    evalExpr "8-3-2" = some 7 ∧ evalExpr "2^3^2" = some 512 := by
  refine ⟨?_, by decide, by decide⟩
  intro cs i operation hsplit k c hk hc hne hpe
  obtain ⟨-, -, -, -, -, -, hleft⟩ := findSplit_some_spec hsplit
  exact (hleft k c hk hc hne hpe).2

/-- Witness for the amended claim C2: in "-5-3" the split point is the minus
at position 2, and the only earlier priority-1 character is the skipped
leading minus at position 0. -/
theorem claim2_witness : (0 : Nat) = 0 ∧ getOperationFromChar '-' = Operation.MIN :=
  claim2_leftmost_right_assoc.1 "-5-3".toList 2 Operation.MIN (by decide) 0 '-'
    (by decide) (by decide) (by decide) (by decide)

unseal Rat.add Rat.mul Rat.sub Rat.inv Rat.ofScientific in
/-- Claim C3: when the input contains a '(' (with a matching ')', located by
the nesting counter), compile recursively compiles the substring strictly
between the pair, immediately evaluates it, substitutes its decimal-string
representation for the whole parenthesized group, and recompiles the spliced
string from scratch, before any operator splitting; consequently
evaluate(compile("(2+3)*4")) = 20 and evaluate(compile("((1+2))*3")) = 9. -/
theorem claim3_paren_substitution :
    (∀ (fuel : Nat) (cs : List Char) (i j : Nat),
        findOpen cs = some (i, j) →
        i < j ∧ j < cs.length ∧ cs[i]? = some '(' ∧ cs[j]? = some ')' ∧
        parseToken (fuel + 1) cs =
          (parseToken fuel (subExpr cs i j)).bind fun t =>
            parseToken fuel (cs.take i ++ toString6 (resolve t) ++ cs.drop (j + 1))) ∧
    evalExpr "(2+3)*4" = some 20 ∧ evalExpr "((1+2))*3" = some 9 := by
  refine ⟨?_, by decide, by decide⟩
  intro fuel cs i j hfo
  obtain ⟨h1, h2, h3, h4⟩ := findOpen_some cs i j hfo
  refine ⟨h1, h2, h3, h4, ?_⟩
  unfold parseToken
  rw [parseTokenGo_succ]
  simp only [hfo, spliceExpr]

/-- Witness for claim C3: the parenthesized group of "(2+3)*4". -/
theorem claim3_witness :
    0 < 4 ∧ 4 < "(2+3)*4".toList.length ∧ "(2+3)*4".toList[0]? = some '(' ∧
    "(2+3)*4".toList[4]? = some ')' ∧
    parseToken 5 "(2+3)*4".toList =
      (parseToken 4 (subExpr "(2+3)*4".toList 0 4)).bind fun t =>
        parseToken 4 ("(2+3)*4".toList.take 0 ++ toString6 (resolve t) ++
          "(2+3)*4".toList.drop 5) :=
  claim3_paren_substitution.1 4 "(2+3)*4".toList 0 4 (by decide)

unseal Rat.add Rat.mul Rat.sub Rat.inv Rat.ofScientific in
/-- Claim C5: during priority-1 splitting, a '-' whose left substring is
empty is skipped (the split index of a string starting with '-' is never 0),
so a minus at the start of the string is absorbed into a signed numeric
literal; in particular evaluate(compile("-5+3")) = -2. -/
theorem claim5_leading_minus_skip :
    (∀ (cs : List Char) (i : Nat) (operation : Operation),
        findSplit true ('-' :: cs) = some (i, operation) → 1 ≤ i) ∧
    (∀ (fuel : Nat) (ds : List Char), (∀ c ∈ ds, c.isDigit) → ds ≠ [] →
        parseToken (fuel + 1) ('-' :: ds) =
          some (Token.NumberToken (-(digitsVal ds : ℚ)))) ∧
    evalExpr "-5+3" = some (-2) := by
  refine ⟨?_, ?_, by decide⟩
  · intro cs i operation h
    exact findSplit_minus_head h
  · intro fuel ds hds hne
    have h := parseTokenGo_lit_shape fuel true false ds [] hds (by simp) (fun _ => rfl)
      (Or.inl hne)
    simp only [if_true, Bool.false_eq_true, if_false, List.append_nil,
      List.singleton_append] at h
    have hval : (-1 : ℚ) * ((digitsVal ds : ℚ) +
        (digitsVal ([] : List Char) : ℚ) / 10 ^ ([] : List Char).length) =
        -(digitsVal ds : ℚ) := by
      rw [show digitsVal ([] : List Char) = 0 from rfl]
      norm_num
    rw [hval] at h
    unfold parseToken
    exact h

/-- Witness for claim C5: the signed literal "-5". -/
theorem claim5_witness :
    parseToken 3 ('-' :: ['5']) = some (Token.NumberToken (-(digitsVal ['5'] : ℚ))) :=
  claim5_leading_minus_skip.2.1 2 ['5'] (by decide) (by decide)

unseal Rat.add Rat.mul Rat.sub Rat.inv Rat.ofScientific in
/-- Claim C6: the terminal literal fallback recognizes the case-sensitive
constants "pi" and "e" with values accurate to better than 10^-14 of the
quoted 15-digit decimals (so evaluate(compile("pi")) and
evaluate(compile("e*2")) match the quoted values), parses plain decimal and
signed-decimal literals to their numeric value, and fails with a ParseError
on any other string that std::stod cannot convert. -/
theorem claim6_literal_fallback :
    parseNumber ['p', 'i'] = some PI ∧
    parseNumber ['e'] = some E ∧
    |PI - 3.14159265358979| < 1 / 10 ^ 14 ∧
    evalExpr "pi" = some PI ∧
    evalExpr "e*2" = some (E * 2) ∧
    |E * 2 - 5.43656365691809| < 1 / 10 ^ 14 ∧
    (∀ (neg dot : Bool) (ip fp : List Char),
        (∀ c ∈ ip, c.isDigit) → (∀ c ∈ fp, c.isDigit) →
        (dot = false → fp = []) → ip ≠ [] ∨ fp ≠ [] →
        parseNumber ((if neg then ['-'] else []) ++ ip ++
            (if dot then '.' :: fp else [])) =
          some ((if neg then (-1 : ℚ) else 1) *
            ((digitsVal ip : ℚ) + (digitsVal fp : ℚ) / 10 ^ fp.length))) ∧
    (∀ cs : List Char, cs ≠ ['p', 'i'] → cs ≠ ['e'] → (strtod cs).1 = none →
        parseNumber cs = none) := by
  refine ⟨by decide, by decide, by decide, by decide, by decide, by decide,
    parseNumber_lit_shape, ?_⟩
  intro cs h1 h2 h3
  unfold parseNumber
  rw [if_neg h1, if_neg h2]
  exact h3

/-- Witness for claim C6: the non-numeric string "abc" fails. -/
theorem claim6_witness : parseNumber "abc".toList = none :=
  claim6_literal_fallback.2.2.2.2.2.2.2 "abc".toList (by decide) (by decide) (by decide)

unseal Rat.add Rat.mul Rat.sub Rat.inv Rat.ofScientific in
/-- Claim C10 counterexample: the two parseToken implementations are not
equivalent: on "-5+3" the src/cpp/main.cpp parser produces a tree evaluating
to -2, while the src/unnamed/part_000 parser (which lacks the leading-minus
skip) fails for every recursion bound. -/
theorem claim10_counterexample :
    (parseToken 64 "-5+3".toList).map resolve = some (-2) ∧
    (∀ fuel : Nat, parseTokenPart000 fuel "-5+3".toList = none) :=
  ⟨by decide, parseTokenPart000_fails_on_minus⟩

unseal Rat.add Rat.mul Rat.sub Rat.inv Rat.ofScientific in
/-- Claim C10 (amended): the two parseToken implementations agree on every
input containing no '-' character; they differ on inputs where a parse step
sees a minus with empty left-hand side: on "-5+3" src/cpp/main.cpp yields -2
while src/unnamed/part_000 fails with a parse error. -/
theorem claim10_minus_free_agree :
    (∀ (fuel : Nat) (cs : List Char), '-' ∉ cs →
        parseToken fuel cs = parseTokenPart000 fuel cs) ∧
    (parseToken 64 "-5+3".toList).map resolve = some (-2) ∧
    parseTokenPart000 64 "-5+3".toList = none := by
  refine ⟨?_, by decide, by decide⟩
  intro fuel cs hm
  unfold parseToken parseTokenPart000
  exact parseTokenGo_skip_agree fuel cs hm

/-- Witness for the amended claim C10 at the minus-free input "2+3*4". -/
theorem claim10_witness :
    parseToken 9 "2+3*4".toList = parseTokenPart000 9 "2+3*4".toList :=
  claim10_minus_free_agree.1 9 "2+3*4".toList (by decide)

end Calculator
